import Mathlib

/-!
Verification of the daily-commit-summarizer pipeline
(`scripts/daily-summary.ts`).

Diff texts are modelled as `List Char` (a JS string is a sequence of
code units; all texts involved here live in the range where JS `.length`
counts characters).  Fallible external calls (the LLM completion
capability `chat`) are modelled as an oracle `String → Except String String`:
`.ok s` is a successful response whose already-trimmed body is `s`
(possibly empty, mirroring `…content?.trim() || ""`), `.error e` is a
failed call whose stringified reason is `e`.
-/

namespace DailySummary

deriving instance DecidableEq for Except

/-- The blank-line separator used by `chunkBySize` between packed units
(template `` `${buf}\n\n${p}` ``). -/
def sep : List Char := ['\n', '\n']

/-- JS `String.prototype.trim`: strip leading and trailing whitespace. -/
def jsTrim (s : List Char) : List Char :=
  ((s.dropWhile Char.isWhitespace).reverse.dropWhile Char.isWhitespace).reverse

/-- Split a text at `'\n'` into its lines (the newline characters are
dropped; a trailing newline yields a final empty line), as
`patch.split("\n")` would. -/
def splitLines : List Char → List (List Char)
  | [] => [[]]
  | c :: cs =>
    if c = '\n' then [] :: splitLines cs
    else
      match splitLines cs with
      | [] => [[c]]
      | g :: gs => (c :: g) :: gs

/-- A line matched by the file-boundary pattern `/^diff --git.*$/m`. -/
def isDiffHeader (line : List Char) : Bool :=
  ['d', 'i', 'f', 'f', ' ', '-', '-', 'g', 'i', 't'].isPrefixOf line

/-- Group the lines of a patch into the runs lying between
`diff --git` header lines (the header lines themselves are removed,
exactly as `split(/^diff --git.*$/m)` removes the matched line text). -/
def splitAtHeaders : List (List Char) → List (List (List Char))
  | [] => [[]]
  | l :: ls =>
    match splitAtHeaders ls, isDiffHeader l with
    | rest, true => [] :: rest
    | [], false => [[l]]
    | g :: gs, false => (l :: g) :: gs

/-- Rejoin a run of lines with `'\n'`. -/
def joinLines : List (List Char) → List Char
  | [] => []
  | [l] => l
  | l :: ls => l ++ '\n' :: joinLines ls

/-- `splitPatchByFile` from the source: split the patch at
`diff --git` lines, trim every part, and keep the non-empty ones
(`parts.map((p) => p.trim()).filter(Boolean)`). -/
def splitPatchByFile (patch : List Char) : List (List Char) :=
  if patch = [] then []
  else
    (((splitAtHeaders (splitLines patch)).map
      (fun g => jsTrim (joinLines g))).filter (fun p => p ≠ []))

/-- The slicing loop `for (let i = 0; i < p.length; i += limit)
out.push(p.slice(i, i + limit))`, written with explicit fuel (each
iteration consumes at least one character once `0 < limit`). -/
def slicesGo (limit : Nat) : Nat → List Char → List (List Char)
  | 0, _ => []
  | fuel + 1, p =>
    if p = [] then []
    else p.take limit :: slicesGo limit fuel (p.drop limit)

/-- Consecutive `limit`-sized slices of an oversized unit. -/
def slices (limit : Nat) (p : List Char) : List (List Char) :=
  slicesGo limit p.length p

/-- The body of `chunkBySize`'s loop over `parts`, carrying the growing
buffer `buf`; the trailing `if (buf) out.push(buf)` is the nil case. -/
def chunkGo (limit : Nat) (buf : List Char) : List (List Char) → List (List Char)
  | [] => if buf = [] then [] else [buf]
  | p :: ps =>
    let candidate := if buf = [] then p else buf ++ sep ++ p
    if limit < candidate.length then
      (if buf = [] then [] else [buf]) ++
        (if limit < p.length then slices limit p ++ chunkGo limit [] ps
         else chunkGo limit p ps)
    else chunkGo limit candidate ps

/-- `chunkBySize(parts, limit)` from the source: greedy packing of the
per-file units into chunks of at most `limit` characters, with hard
slicing of units that alone exceed the limit. -/
def chunkBySize (parts : List (List Char)) (limit : Nat) : List (List Char) :=
  chunkGo limit [] parts

/-- Join a group of units with the blank-line separator, i.e. the text
the buffer holds after the group has been accumulated. -/
def joinSep : List (List Char) → List Char
  | [] => []
  | [u] => u
  | u :: us => u ++ sep ++ joinSep us

/-- Replace every oversized unit by its consecutive slices and keep
every other unit as is: the pieces from which `chunkBySize`'s output
chunks are assembled, in original order. -/
def slicedUnits (limit : Nat) (parts : List (List Char)) : List (List Char) :=
  parts.flatMap (fun p => if limit < p.length then slices limit p else [p])

/- ### Commit Collector -/

/-- The truncation `list.slice(-PER_BRANCH_LIMIT)` applied to one
branch's oldest-first commit list (`branchToCommits.set(rb, ...)`).
JS `slice(-n)` with `n > 0` starts at `max(length - n, 0)`, so it keeps
the last `n` entries; `slice(-0)` is `slice(0)`, the whole list. -/
def branchCommitsEntry (log : List String) (perBranchLimit : Nat) : List String :=
  if perBranchLimit = 0 then log else log.drop (log.length - perBranchLimit)

/-- The branches a commit id is attributed to: the keys of
`shaToBranches`, built by scanning `branchToCommits` (modelled as an
association list from branch name to its commit list) in order. -/
def shaBranches (btc : List (String × List String)) (sha : String) : List String :=
  (btc.filter (fun bc => sha ∈ bc.2)).map (fun bc => bc.1)

/-- `shaToBranches.has(sha)`: the commit appears on at least one
tracked branch. -/
def hasBranch (btc : List (String × List String)) (sha : String) : Bool :=
  !(shaBranches btc sha).isEmpty

/-- The filter body building `commitShas` from `allShasOrdered`: skip
ids already seen, skip ids on no tracked branch, keep the rest and
record them as seen. -/
def dedupFilter (inB : String → Bool) (seen : List String) :
    List String → List String
  | [] => []
  | sha :: rest =>
    if sha ∈ seen then dedupFilter inB seen rest
    else if inB sha then sha :: dedupFilter inB (sha :: seen) rest
    else dedupFilter inB seen rest

/-- `commitShas`: the global oldest-first scan filtered to ids present
on at least one tracked branch, first occurrence kept. -/
def commitShas (btc : List (String × List String))
    (allShasOrdered : List String) : List String :=
  dedupFilter (hasBranch btc) [] allShasOrdered

/-- Lexicographic order on code-unit sequences, deciding `a ≤ b`: the
order in which JS default `Array.sort()` arranges strings. -/
def charsLe : List Char → List Char → Bool
  | [], _ => true
  | _ :: _, [] => false
  | a :: as, b :: bs =>
    if a = b then charsLe as bs else decide (a.toNat < b.toNat)

/-- String comparison used to model `branches.sort()`. -/
def strLe (a b : String) : Bool := charsLe a.data b.data

structure CommitMeta where
  sha : String
  title : String
  author : String
  url : String
  branches : List String
deriving DecidableEq

def serverUrl : String := "https://github.com"

/-- The commit link: `REPO ? s/REPO/commit/sha : s/commit/sha` (the
JS truthiness test degrades the url when `REPO` is the empty string). -/
def commitUrl (repo sha : String) : String :=
  if repo = "" then serverUrl ++ "/commit/" ++ sha
  else serverUrl ++ "/" ++ repo ++ "/commit/" ++ sha

/-- `commitMetas`: one record per filtered commit id, in scan order.
`titleOf` and `authorOf` stand for the `git show` metadata queries
(external collaborator `commitMetadata`).  `Array.from(set).sort()` is
modelled as sorting the attributed branch list by the code-unit
lexicographic order `strLe`. -/
def commitMetas (btc : List (String × List String)) (repo : String)
    (titleOf authorOf : String → String)
    (allShasOrdered : List String) : List CommitMeta :=
  (commitShas btc allShasOrdered).map (fun sha =>
    { sha := sha
      title := titleOf sha
      author := authorOf sha
      url := commitUrl repo sha
      branches := (shaBranches btc sha).insertionSort
        (fun a b => strLe a b = true) })

/- ### Summarization Reducer -/

/-- The fixed commit summary used when the fetched diff is empty
(the zero-diff bypass in the main loop). -/
def zeroDiffSummary : String :=
  "（无有效业务改动或改动已被过滤，例如 lockfile/构建产物/二进制，或空提交）"

/-- `Array.prototype.join("\n\n")` on the collected summaries. -/
def joinSum : List String → String
  | [] => ""
  | [s] => s
  | s :: ss => s ++ "\n\n" ++ joinSum ss

/-- The labelled rendering of the chunk summaries used inside the
commit-tier merge prompt, starting at label `i`. -/
def labelPartsFrom (i : Nat) : List String → List String
  | [] => []
  | p :: ps => ("【片段" ++ toString i ++ "】\n" ++ p) :: labelPartsFrom (i + 1) ps

/-- The labelled blank-line concatenation of the chunk summaries, as
built for the commit-tier merge prompt (`joined`). -/
def labeledConcat (parts : List String) : String :=
  joinSum (labelPartsFrom 1 parts)

/-- `commitChunkPrompt` from the source, rendered by concatenation. -/
def commitChunkPrompt (meta : CommitMeta) (partIdx total : Nat)
    (patch : String) : String :=
  "你是一名资深工程师与发布经理。以下是提交 " ++ meta.sha.take 7 ++ "（" ++
  meta.title ++ "）的 diff 片段（第 " ++ toString partIdx ++ "/" ++
  toString total ++ " 段），请用中文输出结构化摘要：\n\n提交信息：\n- SHA: " ++
  meta.sha ++ "\n- 标题: " ++ meta.title ++ "\n- 作者: " ++ meta.author ++
  "\n- 分支: " ++ String.intercalate ", " meta.branches ++ "\n- 链接: " ++
  meta.url ++
  "\n\n要求输出：\n1) 变更要点（面向工程师与产品）：列出此片段涉及的主要改动与意图\n2) 影响范围：模块/接口/关键文件\n3) 风险&回滚点\n4) 测试建议\n注意：仅基于当前片段，不要臆测；不要贴长代码；如果只是格式化/重命名也请明确指出。\n\n=== DIFF PART BEGIN ===\n" ++
  patch ++ "\n=== DIFF PART END ==="

/-- `commitMergePrompt` from the source. -/
def commitMergePrompt (meta : CommitMeta) (parts : List String) : String :=
  "下面是提交 " ++ meta.sha.take 7 ++
  " 的各片段小结，请合并为**单条提交**的最终摘要（中文），输出以下小节：\n- 变更概述（不超过5条要点）\n- 影响范围（模块/接口/配置）\n- 风险与回滚点\n- 测试建议\n- 面向用户的可见影响（如有）\n\n请避免重复、合并同类项，标注“可能不完整”当某些片段缺失或被截断。\n\n=== 片段小结集合 BEGIN ===\n" ++
  labeledConcat parts ++ "\n=== 片段小结集合 END ==="

/-- The chunk-tier handling of one chunk: call the completion
capability; an empty successful body is replaced by the
`（片段N摘要为空）` placeholder (`sum || ...`), a failed call by the
`（片段N调用失败：…）` placeholder. -/
def chunkSummary (chat : String → Except String String) (meta : CommitMeta)
    (total partIdx : Nat) (c : List Char) : String :=
  match chat (commitChunkPrompt meta partIdx total (String.mk c)) with
  | .ok s => if s = "" then "（片段" ++ toString partIdx ++ "摘要为空）" else s
  | .error e => "（片段" ++ toString partIdx ++ "调用失败：" ++ e ++ "）"

/-- The chunk-tier loop, carrying the 1-based part index. -/
def chunkTierGo (chat : String → Except String String) (meta : CommitMeta)
    (total : Nat) (partIdx : Nat) : List (List Char) → List String
  | [] => []
  | c :: cs =>
    chunkSummary chat meta total partIdx c ::
      chunkTierGo chat meta total (partIdx + 1) cs

/-- The chunk-tier pass over a commit's chunks: `partSummaries`. -/
def chunkTier (chat : String → Except String String) (meta : CommitMeta)
    (chunks : List (List Char)) : List String :=
  chunkTierGo chat meta chunks.length 1 chunks

/-- The prompts issued by the chunk-tier loop, in order. -/
def chunkPromptsGo (meta : CommitMeta) (total partIdx : Nat) :
    List (List Char) → List String
  | [] => []
  | c :: cs =>
    commitChunkPrompt meta partIdx total (String.mk c) ::
      chunkPromptsGo meta total (partIdx + 1) cs

def chunkPrompts (meta : CommitMeta) (chunks : List (List Char)) : List String :=
  chunkPromptsGo meta chunks.length 1 chunks

/-- The commit-tier merge: one completion call over the merge prompt;
on failure, fall back to `partSummaries.join("\n\n")`. -/
def commitTier (chat : String → Except String String) (meta : CommitMeta)
    (partSummaries : List String) : String :=
  match chat (commitMergePrompt meta partSummaries) with
  | .ok merged => merged
  | .error _ => joinSum partSummaries

/-- The chunks the main loop feeds to the chunk tier for one commit. -/
def commitChunks (limit : Nat) (fullPatch : List Char) : List (List Char) :=
  chunkBySize (splitPatchByFile fullPatch) limit

/-- One iteration of the main loop for a commit with fetched diff
`fullPatch`: the final per-commit summary together with the ordered
list of every completion-call prompt issued for this commit.  A diff
that is empty after trimming bypasses both tiers. -/
def processCommit (chat : String → Except String String) (limit : Nat)
    (meta : CommitMeta) (fullPatch : List Char) : String × List String :=
  if jsTrim fullPatch = [] then (zeroDiffSummary, [])
  else
    (commitTier chat meta (chunkTier chat meta (commitChunks limit fullPatch)),
      chunkPrompts meta (commitChunks limit fullPatch) ++
        [commitMergePrompt meta
          (chunkTier chat meta (commitChunks limit fullPatch))])

/-- The `perCommitFinal` list: the daily-tier input, one
`(meta, summary)` item per commit in collector order. -/
def perCommitFinal (chat : String → Except String String) (limit : Nat)
    (commits : List (CommitMeta × List Char)) : List (CommitMeta × String) :=
  commits.map (fun c => (c.1, (processCommit chat limit c.1 c.2).1))

/-- `dailyMergePrompt` from the source: the daily-tier prompt listing
every commit of the daily-tier input, in order. -/
def dailyMergePrompt (dateLabel : String)
    (items : List (CommitMeta × String)) (repo : String) : String :=
  "请将以下“当日各提交摘要”整合成**当日开发变更日报（中文）**，输出结构如下：\n# " ++
  dateLabel ++ " 开发变更日报（" ++ repo ++
  ")\n1. 今日概览（不超过5条）\n2. **按分支**的关键改动清单（每条含模块/影响、是否潜在破坏性）\n3. 跨分支风险与回滚策略（如同一提交在多个分支、存在 cherry-pick/divergence）\n4. 建议测试与验证清单\n5. 其他备注（如重构/依赖升级/仅格式化）\n\n=== 当日提交摘要 BEGIN ===\n" ++
  String.intercalate "\n\n---\n\n"
    (items.map (fun it =>
      "[" ++ it.1.sha.take 7 ++ "] " ++ it.1.title ++ " — " ++ it.1.author ++
      " — " ++ String.intercalate ", " it.1.branches ++ "\n" ++ it.2)) ++
  "\n=== 当日提交摘要 END ==="

/- ### Concrete instances used to evaluate the pipeline -/

/-- A sample commit record. -/
def exMeta : CommitMeta :=
  { sha := "abc1234def", title := "t", author := "a", url := "u",
    branches := ["origin/main"] }

/-- A completion oracle that fails exactly on the commit-tier merge
prompt for `exMeta` with the single chunk summary `"A"`, and answers
`"A"` everywhere else. -/
def exChat : String → Except String String :=
  fun p =>
    if p = commitMergePrompt exMeta ["A"] then .error "boom" else .ok "A"

/-- A completion oracle that always fails with reason `"boom"`. -/
def exChatFail : String → Except String String := fun _ => .error "boom"

/-- A completion oracle that always succeeds with an empty body. -/
def exChatEmpty : String → Except String String := fun _ => .ok ""

/-- The per-branch commit lists of a run where two branches share the
commit `"c1"`. -/
def exBtc : List (String × List String) :=
  [("origin/b", ["c1"]), ("origin/a", ["c1"])]

/-- The commit record `commitMetas` builds for `"c1"` from `exBtc`
(title and author queries both answer constants): two branch names,
sorted. -/
def exMeta9 : CommitMeta :=
  { sha := "c1", title := "t", author := "a",
    url := "https://github.com/o/r/commit/c1",
    branches := ["origin/a", "origin/b"] }

/- ### Basic facts about slices and packing -/

theorem mem_slicesGo_length_le {limit fuel : Nat} {p c : List Char}
    (h : c ∈ slicesGo limit fuel p) : c.length ≤ limit := by
  induction fuel generalizing p with
  | zero => simp [slicesGo] at h
  | succ fuel ih =>
    by_cases hp : p = []
    · simp [slicesGo, hp] at h
    · simp only [slicesGo, if_neg hp, List.mem_cons] at h
      rcases h with h | h
      · subst h
        simp only [List.length_take]
        exact Nat.min_le_left limit p.length
      · exact ih h

theorem mem_slices_length_le {limit : Nat} {p c : List Char}
    (h : c ∈ slices limit p) : c.length ≤ limit :=
  mem_slicesGo_length_le h

theorem slicesGo_flatten {limit : Nat} (hl : 0 < limit) :
    ∀ (fuel : Nat) (p : List Char), p.length ≤ fuel →
      (slicesGo limit fuel p).flatten = p := by
  intro fuel
  induction fuel with
  | zero =>
    intro p hp
    have : p = [] := List.length_eq_zero.mp (Nat.le_zero.mp hp)
    simp [slicesGo, this]
  | succ fuel ih =>
    intro p hp
    by_cases hpn : p = []
    · simp [slicesGo, hpn]
    · have hdrop : (p.drop limit).length ≤ fuel := by
        have := p.length_drop limit
        omega
      simp only [slicesGo, if_neg hpn, List.flatten_cons, ih _ hdrop]
      exact p.take_append_drop limit

theorem slices_flatten {limit : Nat} (hl : 0 < limit) (p : List Char) :
    (slices limit p).flatten = p :=
  slicesGo_flatten hl p.length p (Nat.le_refl _)

theorem chunkGo_length_le {limit : Nat} :
    ∀ (ps : List (List Char)) (buf : List Char), buf.length ≤ limit →
      ∀ c ∈ chunkGo limit buf ps, c.length ≤ limit := by
  intro ps
  induction ps with
  | nil =>
    intro buf hbuf c hc
    by_cases h : buf = [] <;> simp [chunkGo, h] at hc
    · exact hc ▸ hbuf
  | cons p ps ih =>
    intro buf hbuf c hc
    simp only [chunkGo] at hc
    by_cases hcand :
        limit < (if buf = [] then p else buf ++ sep ++ p).length
    · rw [if_pos hcand] at hc
      rcases List.mem_append.mp hc with hc | hc
      · by_cases hb : buf = [] <;> simp [hb] at hc
        · exact hc ▸ hbuf
      · by_cases hp : limit < p.length
      -- oversized unit: its slices are bounded, then recurse with empty buffer
        · rw [if_pos hp] at hc
          rcases List.mem_append.mp hc with hc | hc
          · exact mem_slices_length_le hc
          · exact ih [] (Nat.zero_le _) c hc
        · rw [if_neg hp] at hc
          exact ih p (Nat.le_of_not_lt hp) c hc
    · rw [if_neg hcand] at hc
      exact ih _ (Nat.le_of_not_lt hcand) c hc

/-- Every chunk `chunkBySize` emits has length at most `limit`. -/
theorem chunkBySize_length_le {limit : Nat} (parts : List (List Char)) :
    ∀ c ∈ chunkBySize parts limit, c.length ≤ limit :=
  chunkGo_length_le parts [] (Nat.zero_le _)

/- ### Facts about the blank-line join of a group of units -/

theorem joinSep_cons_cons (u v : List Char) (us : List (List Char)) :
    joinSep (u :: v :: us) = u ++ sep ++ joinSep (v :: us) := by
  simp [joinSep]

theorem exists_joinSep_cons (x : List Char) (l : List (List Char)) :
    ∃ r, joinSep (x :: l) = x ++ r := by
  cases l with
  | nil => exact ⟨[], by simp [joinSep]⟩
  | cons v us => exact ⟨sep ++ joinSep (v :: us), by simp [joinSep_cons_cons]⟩

theorem head_length_le_joinSep (x : List Char) (l : List (List Char)) :
    x.length ≤ (joinSep (x :: l)).length := by
  obtain ⟨r, hr⟩ := exists_joinSep_cons x l
  simp [hr]

theorem joinSep_eq_nil_iff {us : List (List Char)}
    (h : ∀ u ∈ us, u ≠ []) : joinSep us = [] ↔ us = [] := by
  constructor
  · intro hj
    cases us with
    | nil => rfl
    | cons x l =>
      obtain ⟨r, hr⟩ := exists_joinSep_cons x l
      rw [hr] at hj
      have hx := h x (List.mem_cons_self x l)
      exact absurd (List.append_eq_nil.mp hj).1 hx
  · intro h; subst h; rfl

theorem joinSep_append_singleton {us : List (List Char)} (h : us ≠ [])
    (p : List Char) : joinSep (us ++ [p]) = joinSep us ++ sep ++ p := by
  induction us with
  | nil => exact absurd rfl h
  | cons u us ih =>
    cases us with
    | nil => simp [joinSep, joinSep_cons_cons]
    | cons v vs =>
      have h2 := ih (by simp)
      simp only [List.cons_append] at h2 ⊢
      rw [joinSep_cons_cons, h2, joinSep_cons_cons]
      simp [List.append_assoc]

theorem joinSep_glue (a b : List Char) (l : List (List Char)) :
    joinSep ((a ++ sep ++ b) :: l) = joinSep (a :: b :: l) := by
  cases l with
  | nil => simp [joinSep, joinSep_cons_cons]
  | cons v vs => simp [joinSep_cons_cons, List.append_assoc]

/- ### Packing a group that fits within one limit -/

theorem chunkGo_fits {limit : Nat} :
    ∀ (ps : List (List Char)) (buf : List Char), buf ≠ [] →
      (joinSep (buf :: ps)).length ≤ limit →
      chunkGo limit buf ps = [joinSep (buf :: ps)] := by
  intro ps
  induction ps with
  | nil =>
    intro buf hbuf _
    simp [chunkGo, hbuf, joinSep]
  | cons p ps ih =>
    intro buf hbuf hlen
    have hcand : (buf ++ sep ++ p).length ≤ limit := by
      obtain ⟨r, hr⟩ := exists_joinSep_cons p ps
      rw [joinSep_cons_cons, hr] at hlen
      simp only [List.length_append] at hlen ⊢
      omega
    have hglue := joinSep_glue buf p ps
    simp only [chunkGo, if_neg hbuf, if_neg (Nat.not_lt.mpr hcand)]
    rw [ih (buf ++ sep ++ p) (by simp [hbuf]) (hglue ▸ hlen), hglue]

/-- A non-empty sequence of non-empty units whose blank-line join fits
within the limit is packed into exactly that single chunk. -/
theorem chunkBySize_fits {limit : Nat} {units : List (List Char)}
    (h1 : units ≠ []) (h2 : ∀ u ∈ units, u ≠ [])
    (h3 : (joinSep units).length ≤ limit) :
    chunkBySize units limit = [joinSep units] := by
  cases units with
  | nil => exact absurd rfl h1
  | cons u us =>
    have hu : u ≠ [] := h2 u (List.mem_cons_self u us)
    have hle : u.length ≤ limit :=
      Nat.le_trans (head_length_le_joinSep u us) h3
    show chunkGo limit [] (u :: us) = _
    have hstep : chunkGo limit [] (u :: us) = chunkGo limit u us := by
      simp [chunkGo, Nat.not_lt.mpr hle]
    rw [hstep]
    exact chunkGo_fits us u hu h3

/- ### Order preservation: chunks are joins of consecutive unit groups -/

theorem flatten_map_singleton (l : List (List Char)) :
    (l.map (fun s => [s])).flatten = l := by
  induction l with
  | nil => rfl
  | cons x xs ih => simp [ih]

theorem slicedUnits_cons (limit : Nat) (p : List Char)
    (ps : List (List Char)) :
    slicedUnits limit (p :: ps) =
      (if limit < p.length then slices limit p else [p]) ++
        slicedUnits limit ps := by
  simp [slicedUnits]

theorem chunkGo_groups {limit : Nat} :
    ∀ (ps : List (List Char)) (bufUnits : List (List Char)),
      (∀ p ∈ ps, p ≠ []) → (∀ u ∈ bufUnits, u ≠ []) →
      ∃ groups : List (List (List Char)),
        groups.flatten = bufUnits ++ slicedUnits limit ps ∧
        chunkGo limit (joinSep bufUnits) ps = groups.map joinSep ∧
        ∀ g ∈ groups, g ≠ [] := by
  intro ps
  induction ps with
  | nil =>
    intro bufUnits _ hbu
    by_cases hb : bufUnits = []
    · refine ⟨[], by simp [hb, slicedUnits], ?_, by simp⟩
      subst hb
      simp [chunkGo, joinSep]
    · refine ⟨[bufUnits], by simp [slicedUnits], ?_, by simpa using hb⟩
      have : joinSep bufUnits ≠ [] :=
        fun h => hb ((joinSep_eq_nil_iff hbu).mp h)
      simp [chunkGo, this]
  | cons p ps ih =>
    intro bufUnits hps hbu
    have hp : p ≠ [] := hps p (List.mem_cons_self p ps)
    have hps' : ∀ q ∈ ps, q ≠ [] := fun q hq => hps q (List.mem_cons_of_mem p hq)
    have hjnil : joinSep bufUnits = [] ↔ bufUnits = [] := joinSep_eq_nil_iff hbu
    have hcand :
        (if joinSep bufUnits = [] then p else joinSep bufUnits ++ sep ++ p) =
          joinSep (bufUnits ++ [p]) := by
      by_cases hb : bufUnits = []
      · simp [hb, hjnil.mpr hb, joinSep]
      · rw [if_neg (fun h => hb (hjnil.mp h)), joinSep_append_singleton hb]
    by_cases hbig : limit < (joinSep (bufUnits ++ [p])).length
    · -- the candidate overflows: the buffer is flushed
      by_cases hpbig : limit < p.length
      · -- oversized unit: hard slicing
        obtain ⟨groups', hflat', hout', hne'⟩ := ih [] hps' (by simp)
        refine ⟨(if h : bufUnits = [] then [] else [bufUnits]) ++
          (slices limit p).map (fun s => [s]) ++ groups', ?_, ?_, ?_⟩
        · by_cases hb : bufUnits = [] <;>
            simp [hb, hflat', flatten_map_singleton, slicedUnits_cons,
              if_pos hpbig]
        · show chunkGo limit (joinSep bufUnits) (p :: ps) = _
          simp only [chunkGo, hcand, if_pos hbig, if_pos hpbig]
          have hout'' : chunkGo limit [] ps = groups'.map joinSep := by
            simpa [joinSep] using hout'
          by_cases hb : bufUnits = []
          · simp [hb, hjnil.mpr hb, hout'', joinSep,
              List.map_map, Function.comp_def]
          · rw [if_neg (fun h => hb (hjnil.mp h))]
            simp [hb, hout'', joinSep, List.map_map, Function.comp_def]
        · intro g hg
          simp only [List.mem_append] at hg
          rcases hg with (hg | hg) | hg
          · by_cases hb : bufUnits = [] <;> simp [hb] at hg
            · exact hg ▸ hb
          · obtain ⟨s, _, rfl⟩ := List.mem_map.mp hg
            simp
          · exact hne' g hg
      · -- small unit: it starts the new buffer
        have hb : bufUnits ≠ [] := by
          intro hb
          rw [hb] at hbig
          simp only [List.nil_append] at hbig
          have : (joinSep [p]).length ≤ limit := by
            simpa [joinSep] using Nat.le_of_not_lt hpbig
          exact absurd hbig (Nat.not_lt.mpr this)
        obtain ⟨groups', hflat', hout', hne'⟩ := ih [p] hps'
          (by intro u hu; simp at hu; exact hu ▸ hp)
        refine ⟨bufUnits :: groups', ?_, ?_, ?_⟩
        · simp [hflat', slicedUnits_cons, if_neg hpbig]
        · show chunkGo limit (joinSep bufUnits) (p :: ps) = _
          simp only [chunkGo, hcand, if_pos hbig, if_neg hpbig]
          have hout'' : chunkGo limit p ps = groups'.map joinSep := by
            simpa [joinSep] using hout'
          rw [if_neg (fun h => hb (hjnil.mp h)), hout'']
          simp
        · intro g hg
          rcases List.mem_cons.mp hg with rfl | hg
          · exact hb
          · exact hne' g hg
    · -- the candidate still fits: it becomes the new buffer
      have hple : p.length ≤ limit := by
        have h1 : p.length ≤ (joinSep (bufUnits ++ [p])).length := by
          by_cases hb : bufUnits = []
          · simp [hb, head_length_le_joinSep]
          · rw [joinSep_append_singleton hb]
            simp only [List.length_append]
            omega
        exact Nat.le_trans h1 (Nat.le_of_not_lt hbig)
      obtain ⟨groups', hflat', hout', hne'⟩ := ih (bufUnits ++ [p])
        hps' (by
          intro u hu
          rcases List.mem_append.mp hu with hu | hu
          · exact hbu u hu
          · simp at hu; exact hu ▸ hp)
      refine ⟨groups', ?_, ?_, hne'⟩
      · rw [hflat', slicedUnits_cons, if_neg (Nat.not_lt.mpr hple)]
        simp
      · show chunkGo limit (joinSep bufUnits) (p :: ps) = _
        simp only [chunkGo, hcand, if_neg hbig]
        exact hout'

theorem slicedUnits_flatten {limit : Nat} (hl : 0 < limit) :
    ∀ units : List (List Char),
      (slicedUnits limit units).flatten = units.flatten := by
  intro units
  induction units with
  | nil => rfl
  | cons p ps ih =>
    rw [slicedUnits_cons]
    by_cases hpbig : limit < p.length
    · simp [if_pos hpbig, slices_flatten hl, ih]
    · simp [if_neg hpbig, ih]

/-- Order preservation of `chunkBySize`: the emitted chunks are the
blank-line joins of consecutive non-empty groups of the (possibly
sliced) units, in original order; concatenating everything back gives
the concatenation of the original units. -/
theorem chunkBySize_groups {limit : Nat} (hl : 0 < limit)
    {units : List (List Char)} (hu : ∀ u ∈ units, u ≠ []) :
    ∃ groups : List (List (List Char)),
      groups.flatten = slicedUnits limit units ∧
      chunkBySize units limit = groups.map joinSep ∧
      (∀ g ∈ groups, g ≠ []) ∧
      (slicedUnits limit units).flatten = units.flatten := by
  obtain ⟨groups, hflat, hout, hne⟩ := chunkGo_groups units [] hu (by simp)
  exact ⟨groups, by simpa using hflat, by simpa [joinSep] using hout, hne,
    slicedUnits_flatten hl units⟩

/- ### Facts about the Collector -/

theorem mem_dedupFilter_iff (inB : String → Bool) :
    ∀ (l : List String) (seen : List String) (x : String),
      x ∈ dedupFilter inB seen l ↔ x ∈ l ∧ inB x = true ∧ x ∉ seen := by
  intro l
  induction l with
  | nil => intro seen x; simp [dedupFilter]
  | cons sha rest ih =>
    intro seen x
    by_cases hseen : sha ∈ seen
    · rw [dedupFilter, if_pos hseen, ih]
      constructor
      · rintro ⟨h1, h2, h3⟩
        exact ⟨List.mem_cons_of_mem _ h1, h2, h3⟩
      · rintro ⟨h1, h2, h3⟩
        rcases List.mem_cons.mp h1 with rfl | h1
        · exact absurd hseen h3
        · exact ⟨h1, h2, h3⟩
    · by_cases hin : inB sha
      · rw [dedupFilter, if_neg hseen, if_pos hin]
        constructor
        · intro h
          rcases List.mem_cons.mp h with rfl | h
          · exact ⟨List.mem_cons_self _ _, hin, hseen⟩
          · obtain ⟨h1, h2, h3⟩ := (ih _ _).mp h
            exact ⟨List.mem_cons_of_mem _ h1, h2,
              fun hc => h3 (List.mem_cons_of_mem _ hc)⟩
        · rintro ⟨h1, h2, h3⟩
          rcases List.mem_cons.mp h1 with rfl | h1
          · exact List.mem_cons_self _ _
          · by_cases hx : x = sha
            · exact hx ▸ List.mem_cons_self _ _
            · exact List.mem_cons_of_mem _ ((ih _ _).mpr
                ⟨h1, h2, fun hc => (List.mem_cons.mp hc).elim hx h3⟩)
      · rw [dedupFilter, if_neg hseen, if_neg hin, ih]
        constructor
        · rintro ⟨h1, h2, h3⟩
          exact ⟨List.mem_cons_of_mem _ h1, h2, h3⟩
        · rintro ⟨h1, h2, h3⟩
          rcases List.mem_cons.mp h1 with rfl | h1
          · exact absurd h2 (by simpa using hin)
          · exact ⟨h1, h2, h3⟩

theorem dedupFilter_sublist (inB : String → Bool) :
    ∀ (l : List String) (seen : List String),
      (dedupFilter inB seen l).Sublist l := by
  intro l
  induction l with
  | nil => intro seen; simp [dedupFilter]
  | cons sha rest ih =>
    intro seen
    rw [dedupFilter]
    by_cases hseen : sha ∈ seen
    · rw [if_pos hseen]
      exact (ih seen).cons sha
    · rw [if_neg hseen]
      by_cases hin : inB sha
      · rw [if_pos hin]
        exact (ih (sha :: seen)).cons₂ sha
      · rw [if_neg hin]
        exact (ih seen).cons sha

theorem dedupFilter_nodup (inB : String → Bool) :
    ∀ (l : List String) (seen : List String),
      (dedupFilter inB seen l).Nodup := by
  intro l
  induction l with
  | nil => intro seen; simp [dedupFilter]
  | cons sha rest ih =>
    intro seen
    rw [dedupFilter]
    by_cases hseen : sha ∈ seen
    · rw [if_pos hseen]; exact ih seen
    · rw [if_neg hseen]
      by_cases hin : inB sha
      · rw [if_pos hin]
        refine List.nodup_cons.mpr ⟨?_, ih (sha :: seen)⟩
        intro hmem
        exact ((mem_dedupFilter_iff inB rest (sha :: seen) sha).mp hmem).2.2
          (List.mem_cons_self _ _)
      · rw [if_neg hin]; exact ih seen

theorem hasBranch_iff (btc : List (String × List String)) (sha : String) :
    hasBranch btc sha = true ↔ ∃ b cs, (b, cs) ∈ btc ∧ sha ∈ cs := by
  rw [hasBranch]
  simp only [Bool.not_eq_true', List.isEmpty_eq_false_iff_exists_mem,
    shaBranches]
  constructor
  · rintro ⟨b, hb⟩
    obtain ⟨bc, hbc, rfl⟩ := List.mem_map.mp hb
    obtain ⟨hbtc, hsha⟩ := List.mem_filter.mp hbc
    exact ⟨bc.1, bc.2, hbtc, by simpa using hsha⟩
  · rintro ⟨b, cs, hbtc, hsha⟩
    exact ⟨b, List.mem_map.mpr ⟨(b, cs),
      List.mem_filter.mpr ⟨hbtc, by simpa using hsha⟩, rfl⟩⟩

theorem char_toNat_injective {a b : Char} (h : a.toNat = b.toNat) : a = b :=
  Char.eq_of_val_eq (UInt32.toNat.inj h)

theorem charsLe_total : ∀ a b : List Char,
    charsLe a b = true ∨ charsLe b a = true
  | [], _ => Or.inl rfl
  | _ :: _, [] => Or.inr rfl
  | a :: as, b :: bs => by
    by_cases hab : a = b
    · have h := charsLe_total as bs
      subst hab
      simpa [charsLe] using h
    · have hne : a.toNat ≠ b.toNat := fun h => hab (char_toNat_injective h)
      rcases Nat.lt_or_ge a.toNat b.toNat with h | h
      · refine Or.inl ?_
        rw [charsLe, if_neg hab]
        exact decide_eq_true h
      · have hba : b.toNat < a.toNat :=
          Nat.lt_of_le_of_ne h (fun hh => hne hh.symm)
        refine Or.inr ?_
        rw [charsLe, if_neg (fun hh => hab hh.symm)]
        exact decide_eq_true hba

theorem charsLe_trans : ∀ a b c : List Char,
    charsLe a b = true → charsLe b c = true → charsLe a c = true
  | [], _, _ => fun _ _ => rfl
  | _ :: _, [], _ => by intro h _; rw [charsLe] at h; exact absurd h (by simp)
  | _ :: _, _ :: _, [] => by
    intro _ h; rw [charsLe] at h; exact absurd h (by simp)
  | a :: as, b :: bs, c :: cs => by
    intro h1 h2
    by_cases hab : a = b <;> by_cases hbc : b = c
    · subst hab; subst hbc
      rw [charsLe, if_pos rfl] at h1 h2 ⊢
      exact charsLe_trans as bs cs h1 h2
    · subst hab
      rw [charsLe, if_neg hbc] at h2 ⊢
      exact h2
    · subst hbc
      rw [charsLe, if_neg hab] at h1 ⊢
      exact h1
    · rw [charsLe, if_neg hab] at h1
      rw [charsLe, if_neg hbc] at h2
      have hac : a.toNat < c.toNat :=
        Nat.lt_trans (of_decide_eq_true h1) (of_decide_eq_true h2)
      have hacne : a ≠ c := fun hh =>
        Nat.lt_irrefl _ (hh ▸ hac)
      rw [charsLe, if_neg hacne]
      exact decide_eq_true hac

instance : IsTotal String (fun a b => strLe a b = true) :=
  ⟨fun a b => charsLe_total a.data b.data⟩

instance : IsTrans String (fun a b => strLe a b = true) :=
  ⟨fun a b c => charsLe_trans a.data b.data c.data⟩

theorem mem_shaBranches_iff (btc : List (String × List String))
    (sha b : String) :
    b ∈ shaBranches btc sha ↔ ∃ cs, (b, cs) ∈ btc ∧ sha ∈ cs := by
  simp only [shaBranches, List.mem_map, List.mem_filter]
  constructor
  · rintro ⟨bc, ⟨hbtc, hsha⟩, rfl⟩
    exact ⟨bc.2, hbtc, by simpa using hsha⟩
  · rintro ⟨cs, hbtc, hsha⟩
    exact ⟨(b, cs), ⟨hbtc, by simpa using hsha⟩, rfl⟩

/- ### Facts about the Reducer -/

theorem chunkTierGo_length (chat : String → Except String String)
    (meta : CommitMeta) (total : Nat) :
    ∀ (cs : List (List Char)) (k : Nat),
      (chunkTierGo chat meta total k cs).length = cs.length := by
  intro cs
  induction cs with
  | nil => intro k; rfl
  | cons c cs ih => intro k; simp [chunkTierGo, ih]

theorem chunkTierGo_getElem? (chat : String → Except String String)
    (meta : CommitMeta) (total : Nat) :
    ∀ (cs : List (List Char)) (k i : Nat),
      (chunkTierGo chat meta total k cs)[i]? =
        (cs[i]?).map (fun c => chunkSummary chat meta total (k + i) c) := by
  intro cs
  induction cs with
  | nil => intro k i; simp [chunkTierGo]
  | cons c cs ih =>
    intro k i
    cases i with
    | zero => simp [chunkTierGo]
    | succ i =>
      have hk : k + (i + 1) = k + 1 + i := by omega
      rw [hk]
      simp only [chunkTierGo, List.getElem?_cons_succ]
      exact ih (k + 1) i

theorem chunkTier_length (chat : String → Except String String)
    (meta : CommitMeta) (chunks : List (List Char)) :
    (chunkTier chat meta chunks).length = chunks.length :=
  chunkTierGo_length chat meta chunks.length chunks 1

theorem chunkTier_getElem? (chat : String → Except String String)
    (meta : CommitMeta) (chunks : List (List Char)) (i : Nat) :
    (chunkTier chat meta chunks)[i]? =
      (chunks[i]?).map
        (fun c => chunkSummary chat meta chunks.length (i + 1) c) := by
  have h := chunkTierGo_getElem? chat meta chunks.length chunks 1 i
  have hk : 1 + i = i + 1 := by omega
  rw [hk] at h
  exact h

theorem joinSum_cons_cons (s t : String) (ss : List String) :
    joinSum (s :: t :: ss) = s ++ "\n\n" ++ joinSum (t :: ss) := by
  simp [joinSum]

theorem joinSum_mem_split {s : String} :
    ∀ {parts : List String}, s ∈ parts →
      ∃ l r, joinSum parts = l ++ (s ++ r) := by
  intro parts
  induction parts with
  | nil => intro h; simp at h
  | cons p ps ih =>
    intro h
    rcases List.mem_cons.mp h with rfl | h
    · cases ps with
      | nil => exact ⟨"", "", by simp [joinSum]⟩
      | cons q qs =>
        exact ⟨"", "\n\n" ++ joinSum (q :: qs), by
          simp [joinSum_cons_cons, String.append_assoc]⟩
    · obtain ⟨l, r, hl⟩ := ih h
      cases ps with
      | nil => simp at h
      | cons q qs =>
        refine ⟨p ++ "\n\n" ++ l, r, ?_⟩
        rw [joinSum_cons_cons, hl]
        simp [String.append_assoc]

theorem chunkSummary_ne_empty (chat : String → Except String String)
    (meta : CommitMeta) (total partIdx : Nat) (c : List Char) :
    chunkSummary chat meta total partIdx c ≠ "" := by
  rw [chunkSummary]
  split
  · split
    · intro hc
      have h3 := congrArg String.length hc
      simp only [String.length_append] at h3
      have h4 : ("（片段" : String).length = 3 := rfl
      have h0 : ("" : String).length = 0 := rfl
      omega
    · assumption
  · intro hc
    have h3 := congrArg String.length hc
    simp only [String.length_append] at h3
    have h4 : ("（片段" : String).length = 3 := rfl
    have h0 : ("" : String).length = 0 := rfl
    omega

theorem mem_chunkTierGo (chat : String → Except String String)
    (meta : CommitMeta) (total : Nat) :
    ∀ (cs : List (List Char)) (k : Nat) (s : String),
      s ∈ chunkTierGo chat meta total k cs →
      ∃ idx c, s = chunkSummary chat meta total idx c := by
  intro cs
  induction cs with
  | nil => intro k s h; simp [chunkTierGo] at h
  | cons c cs ih =>
    intro k s h
    rcases List.mem_cons.mp h with rfl | h
    · exact ⟨k, c, rfl⟩
    · exact ih (k + 1) s h

/- ### The claims -/

/-- C1: for every sequence of units and every positive limit, every
chunk emitted by `chunkBySize` has length at most the limit; in
particular, packing a single unit of length 25 with limit 10 yields
exactly three chunks of lengths 10, 10 and 5. -/
theorem claim_C1 (parts : List (List Char)) (limit : Nat) (_h : 0 < limit) :
    (∀ c ∈ chunkBySize parts limit, c.length ≤ limit) ∧
      chunkBySize [List.replicate 25 'a'] 10 =
        [List.replicate 10 'a', List.replicate 10 'a',
          List.replicate 5 'a'] :=
  ⟨chunkBySize_length_le parts, by decide⟩

theorem claim_C1_witness :
    (∀ c ∈ chunkBySize [['a', 'b'], ['c']] 5, c.length ≤ 5) ∧
      chunkBySize [List.replicate 25 'a'] 10 =
        [List.replicate 10 'a', List.replicate 10 'a',
          List.replicate 5 'a'] :=
  claim_C1 [['a', 'b'], ['c']] 5 (by decide)

/-- C7: `chunkBySize` is order-preserving.  For a positive limit and
non-empty units, the emitted chunks are the blank-line joins of
consecutive non-empty groups of the sliced-unit sequence (each unit in
input order, each oversized unit replaced by its consecutive slices),
and the concatenation of those constituent pieces in emission order
equals the concatenation of the original units. -/
theorem claim_C7 (units : List (List Char)) (limit : Nat) (h : 0 < limit)
    (hu : ∀ u ∈ units, u ≠ []) :
    ∃ groups : List (List (List Char)),
      groups.flatten = slicedUnits limit units ∧
      chunkBySize units limit = groups.map joinSep ∧
      (∀ g ∈ groups, g ≠ []) ∧
      (slicedUnits limit units).flatten = units.flatten :=
  chunkBySize_groups h hu

theorem claim_C7_witness :
    ∃ groups : List (List (List Char)),
      groups.flatten = slicedUnits 4 [['a', 'b'], ['c']] ∧
      chunkBySize [['a', 'b'], ['c']] 4 = groups.map joinSep ∧
      (∀ g ∈ groups, g ≠ []) ∧
      (slicedUnits 4 [['a', 'b'], ['c']]).flatten =
        [['a', 'b'], ['c']].flatten :=
  claim_C7 [['a', 'b'], ['c']] 4 (by decide) (by decide)

/-- C8: packing a non-empty sequence of (non-empty) units whose total
blank-line-joined length fits within one limit produces exactly one
chunk, namely the join itself. -/
theorem claim_C8 (units : List (List Char)) (limit : Nat)
    (h1 : units ≠ []) (h2 : ∀ u ∈ units, u ≠ [])
    (h3 : (joinSep units).length ≤ limit) :
    chunkBySize units limit = [joinSep units] ∧
      (chunkBySize units limit).length = 1 := by
  have h := chunkBySize_fits h1 h2 h3
  exact ⟨h, by rw [h]; rfl⟩

theorem claim_C8_witness :
    chunkBySize [['a'], ['b']] 10 = [joinSep [['a'], ['b']]] ∧
      (chunkBySize [['a'], ['b']] 10).length = 1 :=
  claim_C8 [['a'], ['b']] 10 (by decide) (by decide) (by decide)

/-- C6: for a branch whose oldest-first in-window commit list is `log`
and a positive per-branch limit, the stored per-branch sequence is
`log` itself when it does not exceed the limit, and otherwise it is a
suffix of `log` (so still oldest first) of exactly the limit's length,
equal to the most recent (last) `n` ids. -/
theorem claim_C6 (log : List String) (n : Nat) (hn : 0 < n) :
    (log.length ≤ n → branchCommitsEntry log n = log) ∧
    (n < log.length →
      (branchCommitsEntry log n).length = n ∧
      (branchCommitsEntry log n) <:+ log ∧
      branchCommitsEntry log n = (log.reverse.take n).reverse) := by
  have hne : n ≠ 0 := Nat.pos_iff_ne_zero.mp hn
  constructor
  · intro hle
    rw [branchCommitsEntry, if_neg hne, Nat.sub_eq_zero_of_le hle,
      List.drop_zero]
  · intro hlt
    rw [branchCommitsEntry, if_neg hne]
    refine ⟨?_, List.drop_suffix _ _, ?_⟩
    · rw [List.length_drop]
      omega
    · rw [List.take_reverse, List.reverse_reverse]

theorem claim_C6_witness :
    (([ "a", "b", "c" ] : List String).length ≤ 2 →
      branchCommitsEntry ["a", "b", "c"] 2 = ["a", "b", "c"]) ∧
    (2 < ([ "a", "b", "c" ] : List String).length →
      (branchCommitsEntry ["a", "b", "c"] 2).length = 2 ∧
      (branchCommitsEntry ["a", "b", "c"] 2) <:+ ["a", "b", "c"] ∧
      branchCommitsEntry ["a", "b", "c"] 2 =
        ((["a", "b", "c"] : List String).reverse.take 2).reverse) :=
  claim_C6 ["a", "b", "c"] 2 (by decide)

/-- C3: every id in the final global ordered sequence `commitShas` is
attributed to at least one tracked branch, the sequence is
duplicate-free, it is a sublist of the global oldest-first scan (so it
preserves first-seen order), and it contains exactly the scanned ids
present on some tracked branch. -/
theorem claim_C3 (btc : List (String × List String))
    (allShasOrdered : List String) :
    (∀ sha ∈ commitShas btc allShasOrdered,
      ∃ b cs, (b, cs) ∈ btc ∧ sha ∈ cs) ∧
    (commitShas btc allShasOrdered).Nodup ∧
    (commitShas btc allShasOrdered).Sublist allShasOrdered ∧
    (∀ sha, sha ∈ commitShas btc allShasOrdered ↔
      sha ∈ allShasOrdered ∧ hasBranch btc sha = true) := by
  refine ⟨?_, dedupFilter_nodup _ _ _, dedupFilter_sublist _ _ _, ?_⟩
  · intro sha hsha
    have h := (mem_dedupFilter_iff (hasBranch btc) allShasOrdered [] sha).mp hsha
    exact (hasBranch_iff btc sha).mp h.2.1
  · intro sha
    rw [commitShas, mem_dedupFilter_iff]
    simp

theorem claim_C3_witness :
    ∃ b cs, (b, cs) ∈ [("origin/main", ["c1"])] ∧ "c1" ∈ cs :=
  (claim_C3 [("origin/main", ["c1"])] ["c1", "c2", "c1"]).1 "c1" (by decide)

/-- C9: every `CommitMeta` built by `commitMetas` (the records entering
the Reducer) has a non-empty `branches` field, sorted by the string
order, containing exactly the tracked branches whose in-window commit
list contains the record's id. -/
theorem claim_C9 (btc : List (String × List String)) (repo : String)
    (titleOf authorOf : String → String) (allShasOrdered : List String)
    (m : CommitMeta)
    (hm : m ∈ commitMetas btc repo titleOf authorOf allShasOrdered) :
    m.branches ≠ [] ∧ m.branches.Sorted (fun a b => strLe a b = true) ∧
    ∀ b, (b ∈ m.branches ↔ ∃ cs, (b, cs) ∈ btc ∧ m.sha ∈ cs) := by
  obtain ⟨sha, hsha, rfl⟩ := List.mem_map.mp hm
  have hperm := (shaBranches btc sha).perm_insertionSort
    (fun a b => strLe a b = true)
  refine ⟨?_, ?_, ?_⟩
  · have hb : hasBranch btc sha = true :=
      ((mem_dedupFilter_iff (hasBranch btc) allShasOrdered [] sha).mp
        hsha).2.1
    obtain ⟨b, cs, hbtc, hcs⟩ := (hasBranch_iff btc sha).mp hb
    intro hnil
    have hmem : b ∈ shaBranches btc sha :=
      (mem_shaBranches_iff btc sha b).mpr ⟨cs, hbtc, hcs⟩
    have hnil' : (shaBranches btc sha).insertionSort
        (fun a b => strLe a b = true) = [] := hnil
    rw [← hperm.mem_iff, hnil'] at hmem
    exact (List.not_mem_nil b) hmem
  · exact (shaBranches btc sha).sorted_insertionSort
      (fun a b => strLe a b = true)
  · intro b
    show b ∈ (shaBranches btc sha).insertionSort
      (fun a b => strLe a b = true) ↔ _
    rw [hperm.mem_iff]
    exact mem_shaBranches_iff btc sha b

theorem claim_C9_witness :
    exMeta9.branches ≠ [] ∧
    List.Sorted (fun a b => strLe a b = true) exMeta9.branches ∧
    ∀ b, (b ∈ exMeta9.branches ↔
      ∃ cs, (b, cs) ∈ exBtc ∧ exMeta9.sha ∈ cs) :=
  claim_C9 exBtc "o/r" (fun _ => "t") (fun _ => "a") ["c1"] exMeta9
    (by decide)

/-- C4: a commit whose fetched diff is empty issues no chunk-tier and
no commit-tier completion call (its recorded call list is empty), its
summary is the fixed placeholder, and it still appears with that
placeholder in the daily-tier input `perCommitFinal`. -/
theorem claim_C4 (chat : String → Except String String) (limit : Nat)
    (commits : List (CommitMeta × List Char)) (meta : CommitMeta)
    (patch : List Char) (hmem : (meta, patch) ∈ commits)
    (hempty : patch = []) :
    (processCommit chat limit meta patch).2 = [] ∧
    (processCommit chat limit meta patch).1 = zeroDiffSummary ∧
    (meta, zeroDiffSummary) ∈ perCommitFinal chat limit commits := by
  subst hempty
  have hproc : processCommit chat limit meta [] = (zeroDiffSummary, []) := rfl
  refine ⟨by rw [hproc], by rw [hproc], ?_⟩
  have heq : (meta, zeroDiffSummary) =
      (fun c : CommitMeta × List Char =>
        (c.1, (processCommit chat limit c.1 c.2).1)) (meta, []) := by
    show (meta, zeroDiffSummary) = (meta, (processCommit chat limit meta []).1)
    rw [hproc]
  rw [perCommitFinal, heq]
  exact List.mem_map_of_mem _ hmem

theorem claim_C4_witness :
    (processCommit exChat 10 exMeta []).2 = [] ∧
    (processCommit exChat 10 exMeta []).1 = zeroDiffSummary ∧
    (exMeta, zeroDiffSummary) ∈ perCommitFinal exChat 10 [(exMeta, [])] :=
  claim_C4 exChat 10 [(exMeta, [])] exMeta [] (List.mem_cons_self _ _) rfl

/-- C5: the chunk-tier loop yields one summary per chunk; the summary
of chunk `i` depends only on chunk `i`; and when the completion call
for chunk `i` fails with reason `e`, the recorded summary for that
chunk is the literal placeholder naming the 1-based chunk index and
`e`, which therefore appears in the chunk-summary list — one chunk's
failure never skips or aborts the others. -/
theorem claim_C5 (chat : String → Except String String)
    (meta : CommitMeta) (chunks : List (List Char)) (i : Nat)
    (c : List Char) (e : String) (hc : chunks[i]? = some c)
    (hfail : chat (commitChunkPrompt meta (i + 1) chunks.length
      (String.mk c)) = .error e) :
    (chunkTier chat meta chunks).length = chunks.length ∧
    (∀ j, (chunkTier chat meta chunks)[j]? = (chunks[j]?).map
      (fun d => chunkSummary chat meta chunks.length (j + 1) d)) ∧
    (chunkTier chat meta chunks)[i]? =
      some ("（片段" ++ toString (i + 1) ++ "调用失败：" ++ e ++ "）") ∧
    ("（片段" ++ toString (i + 1) ++ "调用失败：" ++ e ++ "）") ∈
      chunkTier chat meta chunks := by
  have hph : (chunkTier chat meta chunks)[i]? =
      some ("（片段" ++ toString (i + 1) ++ "调用失败：" ++ e ++ "）") := by
    rw [chunkTier_getElem?, hc]
    show some (chunkSummary chat meta chunks.length (i + 1) c) = _
    rw [chunkSummary, hfail]
  exact ⟨chunkTier_length chat meta chunks,
    fun j => chunkTier_getElem? chat meta chunks j, hph,
    List.getElem?_mem hph⟩

theorem claim_C5_witness :
    (chunkTier exChatFail exMeta [['x']]).length = ([['x']] :
      List (List Char)).length ∧
    (∀ j, (chunkTier exChatFail exMeta [['x']])[j]? =
      (([['x']] : List (List Char))[j]?).map
        (fun d => chunkSummary exChatFail exMeta 1 (j + 1) d)) ∧
    (chunkTier exChatFail exMeta [['x']])[0]? =
      some ("（片段" ++ toString 1 ++ "调用失败：" ++ "boom" ++ "）") ∧
    ("（片段" ++ toString 1 ++ "调用失败：" ++ "boom" ++ "）") ∈
      chunkTier exChatFail exMeta [['x']] :=
  claim_C5 exChatFail exMeta [['x']] 0 ['x'] "boom" rfl rfl

set_option maxRecDepth 8192 in
/-- C2 as stated is false: when the commit-tier merge call fails, the
fallback summary is `partSummaries.join("\n\n")` with no position
labels, not the labelled concatenation used inside the merge prompt.
Concretely, for a one-chunk commit whose chunk summary is `"A"` and
whose merge call fails, the resulting summary is `"A"`, not
`"【片段1】\nA"`. -/
theorem claim_C2_counterexample :
    exChat (commitMergePrompt exMeta
      (chunkTier exChat exMeta (commitChunks 10 ['x']))) = .error "boom" ∧
    (processCommit exChat 10 exMeta ['x']).1 ≠
      labeledConcat (chunkTier exChat exMeta (commitChunks 10 ['x'])) := by
  constructor
  · decide
  · decide

/-- C2 amended: for every commit with a diff that is non-empty after
trimming, if the commit-tier completion call fails then the resulting
commit summary equals the literal blank-line concatenation
(`join("\n\n")`) of that commit's chunk summaries, in chunk order,
with no extra per-chunk position labels (position labels appear only
inside the failure and empty-result placeholders themselves). -/
theorem claim_C2 (chat : String → Except String String) (limit : Nat)
    (meta : CommitMeta) (patch : List Char) (e : String)
    (hne : jsTrim patch ≠ [])
    (hfail : chat (commitMergePrompt meta
      (chunkTier chat meta (commitChunks limit patch))) = .error e) :
    (processCommit chat limit meta patch).1 =
      joinSum (chunkTier chat meta (commitChunks limit patch)) := by
  rw [processCommit, if_neg hne]
  show commitTier chat meta (chunkTier chat meta (commitChunks limit patch)) = _
  rw [commitTier, hfail]

set_option maxRecDepth 8192 in
theorem claim_C2_witness :
    (processCommit exChat 10 exMeta ['x']).1 =
      joinSum (chunkTier exChat exMeta (commitChunks 10 ['x'])) :=
  claim_C2 exChat 10 exMeta ['x'] "boom" (by decide) (by decide)

/-- C10: every chunk-tier summary recorded in `partSummaries` is
non-empty — a successful call returning empty text is replaced by the
indexed `（片段N摘要为空）` placeholder — while the commit tier has no
such guard: a successful merge call whose body is any string `r`,
including the empty string, is stored as the commit summary unchanged. -/
theorem claim_C10 (chat : String → Except String String)
    (meta : CommitMeta) (chunks : List (List Char)) (ps : List String)
    (r : String) :
    (∀ s ∈ chunkTier chat meta chunks, s ≠ "") ∧
    (∀ i c, chunks[i]? = some c →
      chat (commitChunkPrompt meta (i + 1) chunks.length
        (String.mk c)) = .ok "" →
      (chunkTier chat meta chunks)[i]? =
        some ("（片段" ++ toString (i + 1) ++ "摘要为空）")) ∧
    (chat (commitMergePrompt meta ps) = .ok r →
      commitTier chat meta ps = r) := by
  refine ⟨?_, ?_, ?_⟩
  · intro s hs
    obtain ⟨idx, c, rfl⟩ :=
      mem_chunkTierGo chat meta chunks.length chunks 1 s hs
    exact chunkSummary_ne_empty chat meta chunks.length idx c
  · intro i c hc hok
    rw [chunkTier_getElem?, hc]
    show some (chunkSummary chat meta chunks.length (i + 1) c) = _
    rw [chunkSummary, hok]
    rfl
  · intro hok
    rw [commitTier, hok]

theorem claim_C10_witness :
    commitTier exChatEmpty exMeta ["A"] = "" :=
  (claim_C10 exChatEmpty exMeta [] ["A"] "").2.2 rfl

end DailySummary
